import Mathlib

/-!
# hybrid-webcache: shallow embedding and verification

This file embeds the core of the `hybrid-webcache` TypeScript library
(facade `HybridWebCache`, the `MemoryStrategy` backend, `Utils`, the
lodash-style deep key-path operations `_get`/`_set`/`_unset`, and
`StorageFactory.createStorage`) and proves properties of the embedded
definitions.

Modelling conventions:
* JSON documents are the inductive `JValue`; JS `undefined` is `Option.none`,
  JS `null` is `JValue.null`.
* Machine numbers (timestamps, TTL milliseconds) are `Int`.
* Key paths are modelled in lodash's parsed array form (`List String`), the
  form produced by `_.toPath` / passed directly as array key paths; the
  string form of `Utils.getKey` is modelled separately on `KeyPath`.
* The `MemoryStrategy` backend is a `Map` insertion-ordered key/value store,
  modelled as an association list without duplicate keys introduced by its
  operations.  The asynchronous operations of the source are
  `Promise.resolve` around the synchronous ones, so the embedding has a
  single (synchronous) model of each operation.
* Mutation is modelled by explicit state passing: operations return the new
  store together with their result.
-/

namespace HybridWebCacheModel

/-- A JSON-serializable document (`ValueType` in `core/types/types.ts`).
Object fields are kept in insertion order, as JS enumeration order for
non-integer string keys. -/
inductive JValue where
  | null
  | bool (b : Bool)
  | num (n : Int)
  | str (s : String)
  | arr (items : List JValue)
  | obj (fields : List (String × JValue))

/-- Model of `DataModel<T>` from `core/types/types.ts`: the persisted entry.  It has
only `value` and `expiresAt` fields; `isExpired` is not part of the stored
record. -/
structure DataModel where
  value : JValue
  expiresAt : Int

/-- Model of `DataGetModel<T>` from `core/types/types.ts`: the record returned by the
read operations; it extends `DataModel` with the derived `isExpired`. -/
structure DataGetModel where
  value : JValue
  expiresAt : Int
  isExpired : Bool

/-- Model of `KeyPath = string | Array<string>` from `core/types/types.ts`. -/
inductive KeyPath where
  | arr (segs : List String)
  | str (s : String)
  deriving DecidableEq, Repr

/-- Model of `TTL = number | { seconds?, minutes?, hours?, days? }`. -/
inductive TTL where
  | ms (n : Int)
  | dur (seconds minutes hours days : Option Int)
  deriving DecidableEq, Repr

/-- JS truthiness of a `JValue` (used by `data?.value || {}`). -/
def jsTruthy : JValue → Bool
  | .null => false
  | .bool b => b
  | .num n => n != 0
  | .str s => s != ""
  | .arr _ => true
  | .obj _ => true

/-! ## Association-list helpers

JS objects and `Map`s assign by replacing the value of an existing key in
place (keeping its position) and appending new keys at the end. -/

/-- First value bound to `key` (JS property read / `Map.get`). -/
def listLookup {β : Type} (key : String) : List (String × β) → Option β
  | [] => none
  | (k, v) :: rest => if k = key then some v else listLookup key rest

/-- JS assignment `o[key] = v` / `Map.set`: replace in place or append. -/
def listUpsert {β : Type} (key : String) (v : β) : List (String × β) → List (String × β)
  | [] => [(key, v)]
  | (k, w) :: rest => if k = key then (k, v) :: rest else (k, w) :: listUpsert key v rest

/-- In-place update of the first binding of `key`, leaving the list unchanged
when `key` is absent (models mutating a child object found by lookup). -/
def listUpdate {β : Type} (key : String) (v : β) : List (String × β) → List (String × β)
  | [] => []
  | (k, w) :: rest => if k = key then (k, v) :: rest else (k, w) :: listUpdate key v rest

/-- JS `delete o[key]` / `Map.delete`: remove the binding of `key`. -/
def listErase {β : Type} (key : String) (l : List (String × β)) : List (String × β) :=
  l.filter (fun kv => kv.1 ≠ key)

namespace Utils

/-- The maximal (possibly empty) prefix of the characters that stops at the
first `.`, `[` or `]` — the match of the regex `/^[^.[\]]+/` in
`Utils.getKey`. -/
def strKeyMatch : List Char → List Char
  | [] => []
  | c :: cs => if c = '.' ∨ c = '[' ∨ c = ']' then [] else c :: strKeyMatch cs

/-- Source:
`Utils.getKey` (`core/utils/Utils.ts`):
```ts
getKey(keyPath) {
  let key = keyPath.toString();
  if (Array.isArray(keyPath)) {
    key = keyPath.length > 0 ? String(keyPath[0]) : '';
  } else {
    const match = keyPath.match(/^[^.[\]]+/);
    if (match) key = match[0];
  }
  return key;
}
```
When the regex does not match (first character is `.`, `[` or `]`, or the
string is empty) `key` keeps its initial value `keyPath.toString()`, i.e. the
whole string. -/
def getKey : KeyPath → String
  | .arr segs =>
    match segs with
    | [] => ""
    | s :: _ => s
  | .str s =>
    let m := strKeyMatch s.data
    if m.isEmpty then s else String.mk m

/-- Source:
`Utils.convertTTLToMilliseconds`:
```ts
if (typeof ttl === 'number') return ttl;
const s = (ttl.seconds || 0) * 1000;
const m = (ttl.minutes || 0) * 60 * 1000;
const h = (ttl.hours || 0) * 60 * 60 * 1000;
const d = (ttl.days || 0) * 24 * 60 * 60 * 1000;
return s + m + h + d;
```
-/
def convertTTLToMilliseconds : TTL → Int
  | .ms n => n
  | .dur s m h d =>
    (s.getD 0) * 1000 + (m.getD 0) * 60 * 1000 + (h.getD 0) * 60 * 60 * 1000 +
      (d.getD 0) * 24 * 60 * 60 * 1000

/-- Source:
`Utils.isExpired`:
```ts
static isExpired(expiresAt: number): boolean {
  return expiresAt > 0 ? expiresAt <= Date.now() : false;
}
```
`Date.now()` is passed explicitly as `now`. -/
def isExpired (expiresAt now : Int) : Bool :=
  if expiresAt > 0 then expiresAt ≤ now else false

end Utils

namespace Lodash

/-- Numeric value of a list of decimal digit characters. -/
def digitsToNat (cs : List Char) : Nat :=
  cs.foldl (fun acc c => acc * 10 + (c.toNat - 48)) 0

/-- Lodash `isIndex`: a path segment names an array index iff it matches
`/^(?:0|[1-9]\d*)$/`, i.e. it is the canonical decimal numeral of a natural
number (so `"01"` or `"-1"` are not indices); the value is that number. -/
def toIndex? (s : String) : Option Nat :=
  match s.data with
  | [] => none
  | [c] =>
    if c = '0' then some 0
    else if '1' ≤ c ∧ c ≤ '9' then some (digitsToNat [c]) else none
  | c :: cs =>
    if '1' ≤ c ∧ c ≤ '9' ∧ cs.all (fun d => decide ('0' ≤ d ∧ d ≤ '9')) then
      some (digitsToNat (c :: cs))
    else none

/-- Source:
lodash `_get(doc, path)` on parsed paths: walk the document; return
`none` (JS `undefined`) on any miss.  JS string character indexing and
named properties on arrays are outside this embedding. -/
def get : JValue → List String → Option JValue
  | doc, [] => some doc
  | .obj fs, s :: rest =>
    match listLookup s fs with
    | some c => get c rest
    | none => none
  | .arr xs, s :: rest =>
    match toIndex? s with
    | some i =>
      match xs[i]? with
      | some c => get c rest
      | none => none
    | none => none
  | _, _ :: _ => none

/-- JS array assignment `xs[i] = v`: in range it replaces the slot; past the
end it extends the array, the intervening holes reading back as `null` once
serialized. -/
def arraySet (xs : List JValue) (i : Nat) (v : JValue) : List JValue :=
  if i < xs.length then xs.set i v
  else xs ++ List.replicate (i - xs.length) JValue.null ++ [v]

/-- lodash `baseSet` intermediate container: keep an existing object/array
child (`isObject`), otherwise create `[]` when the next segment is an index
and `{}` otherwise. -/
def nextContainer (child : Option JValue) (nextSeg : String) : JValue :=
  match child with
  | some (.obj fs) => .obj fs
  | some (.arr xs) => .arr xs
  | _ => if (toIndex? nextSeg).isSome then .arr [] else .obj []

/-- Source:
lodash `_set(doc, path, value)` on parsed paths (`baseSet`): descend,
creating or replacing intermediate containers; assign at the last segment.
A non-object root is returned unchanged (`if (!isObject(object)) return
object`), and an empty path performs no assignment. -/
def set (doc : JValue) (path : List String) (v : JValue) : JValue :=
  match path with
  | [] => doc
  | [s] =>
    match doc with
    | .obj fs => .obj (listUpsert s v fs)
    | .arr xs =>
      match toIndex? s with
      | some i => .arr (arraySet xs i v)
      | none => .arr xs
    | _ => doc
  | s :: s2 :: rest =>
    match doc with
    | .obj fs => .obj (listUpsert s (set (nextContainer (listLookup s fs) s2) (s2 :: rest) v) fs)
    | .arr xs =>
      match toIndex? s with
      | some i => .arr (arraySet xs i (set (nextContainer xs[i]? s2) (s2 :: rest) v))
      | none => .arr xs
    | _ => doc

/-- JS `delete parent[seg]` at the last path segment of `_unset`: on an
object it removes the field; on an array index it empties the slot without
reindexing (the hole serializes as `null`); in every representable case the
`delete` operator evaluates to `true`. -/
def deleteKey : JValue → String → JValue × Bool
  | .obj fs, s => (.obj (listErase s fs), true)
  | .arr xs, s =>
    match toIndex? s with
    | some i => if i < xs.length then (.arr (xs.set i .null), true) else (.arr xs, true)
    | none => (.arr xs, true)
  | v, _ => (v, true)

/-- Source:
lodash `_unset(doc, path)` (`baseUnset`): locate the parent of the last
segment by `baseGet` and `delete` the last segment on it; when the parent
lookup misses (or hits a primitive) nothing changes and the result is
`true`.  `delete` never fails on plain JSON data, so the returned flag is
`true` in every representable case. -/
def unset : JValue → List String → JValue × Bool
  | doc, [] => (doc, true)
  | doc, [s] => deleteKey doc s
  | doc, s :: s2 :: rest =>
    match doc with
    | .obj fs =>
      match listLookup s fs with
      | some c =>
        let r := unset c (s2 :: rest)
        (.obj (listUpdate s r.1 fs), r.2)
      | none => (doc, true)
    | .arr xs =>
      match toIndex? s with
      | some i =>
        match xs[i]? with
        | some c =>
          let r := unset c (s2 :: rest)
          (.arr (xs.set i r.1), r.2)
        | none => (doc, true)
      | none => (doc, true)
    | _ => (doc, true)


/-! ### String key paths: lodash `isKey` / `stringToPath` / `castPath`

The facade accepts string key paths as well; `_get`/`_set`/`_unset` turn
them into segment lists through `castPath(path, object)`, which uses the
string directly as a single plain key when `isKey` holds and otherwise
tokenizes it with `stringToPath`.  These parses are independent of
`Utils.getKey` and need not agree with it. -/

/-- Membership in the regex class `\w` (`reIsPlainProp = /^\w*$/`). -/
def isWordChar (c : Char) : Bool :=
  c.isAlphanum || c = '_'

/-- True when a `]` occurs before any further bracket character — the tail
condition for an innermost `[...]` pair. -/
def closesBeforeOpen : List Char → Bool
  | [] => false
  | c :: rest =>
    if c = ']' then true
    else if c = '[' then false
    else closesBeforeOpen rest

/-- True when the characters contain a bracket segment `[...]` with no
bracket character strictly inside — how the bracket alternative of
`reIsDeepProp = /\.|\[(?:[^[\]]*|(["'])(?:(?!\1)[^\\]|\\.)*?\1)\]/` can
match (any matching quoted segment also contains such an innermost pair). -/
def hasBracketPair : List Char → Bool
  | [] => false
  | c :: rest => (c = '[' && closesBeforeOpen rest) || hasBracketPair rest

/--
lodash `isKey` for string inputs:
```js
return reIsPlainProp.test(value) || !reIsDeepProp.test(value) ||
  (object != null && value in Object(object));
```
so a string is a direct key when it is all word characters, or when it
contains neither a dot nor a bracket segment.  The `value in Object(object)`
fallback (a path used verbatim because the target object already owns that
exact property name) is outside this embedding; no claim depends on it. -/
def isKey (s : String) : Bool :=
  s.data.all isWordChar || !(s.data.contains '.' || hasBracketPair s.data)

/-- Maximal leading run of decimal digits, with the remaining characters. -/
def digitsRun : List Char → List Char × List Char
  | [] => ([], [])
  | c :: rest =>
    if c.isDigit then ((c :: (digitsRun rest).1), (digitsRun rest).2)
    else ([], c :: rest)

/-- The bracket-number alternative `\[(-?\d+(?:\.\d+)?)\]` of
`rePropName`, applied to the characters after the opening `[`: an optional
minus sign, digits, an optional decimal part, then the closing `]`.
Returns the captured number characters and the characters after `]`.
The quoted alternatives `["…"]` / `['…']` (with their escape handling) are
outside this embedding; no claim involves them. -/
def bracketNumber (cs : List Char) : Option (List Char × List Char) :=
  let sign : List Char × List Char :=
    match cs with
    | '-' :: rest => (['-'], rest)
    | _ => ([], cs)
  let d1 := digitsRun sign.2
  if d1.1 = [] then none
  else
    match d1.2 with
    | ']' :: rest2 => some (sign.1 ++ d1.1, rest2)
    | '.' :: rest2 =>
      let d2 := digitsRun rest2
      if d2.1 = [] then none
      else
        match d2.2 with
        | ']' :: rest3 => some (sign.1 ++ d1.1 ++ '.' :: d2.1, rest3)
        | _ => none
    | _ => none

/-- Second half of the empty-match lookahead of `rePropName`:
`(?:\.|\[\]|$)`. -/
def lookaheadNext : List Char → Bool
  | [] => true
  | '.' :: _ => true
  | '[' :: ']' :: _ => true
  | _ => false

/-- The empty-match alternative `(?=(?:\.|\[\])(?:\.|\[\]|$))` of
`rePropName`, which pushes an empty segment between consecutive separators. -/
def lookaheadEmpty : List Char → Bool
  | '.' :: rest => lookaheadNext rest
  | '[' :: ']' :: rest => lookaheadNext rest
  | _ => false

/--
Global scan of `rePropName` over the characters, trying at each position the
alternatives in order: a run `[^.[\]]+`, a bracket number, the empty-match
lookahead; on no match the scan advances one character (as a JS global
`replace` does, which also advances one character past an empty match).
Each step consumes at least one character, so the character count passed by
`stringToPath` as `fuel` makes the recursion structural without cutting the
scan short. -/
def tokensGo : Nat → List Char → List String
  | 0, _ => []
  | _ + 1, [] => []
  | fuel + 1, c :: rest =>
    if c ≠ '.' ∧ c ≠ '[' ∧ c ≠ ']' then
      let run := rest.takeWhile fun d => d ≠ '.' ∧ d ≠ '[' ∧ d ≠ ']'
      String.mk (c :: run) :: tokensGo fuel (rest.drop run.length)
    else if c = '[' then
      match bracketNumber rest with
      | some r => String.mk r.1 :: tokensGo fuel r.2
      | none =>
        if lookaheadEmpty (c :: rest) then "" :: tokensGo fuel rest
        else tokensGo fuel rest
    else
      if lookaheadEmpty (c :: rest) then "" :: tokensGo fuel rest
      else tokensGo fuel rest

/--
lodash `stringToPath`:
```js
var result = [];
if (string.charCodeAt(0) === 46 /* . */) result.push('');
string.replace(rePropName, function(match, number, quote, subString) {
  result.push(quote ? subString.replace(reEscapeChar, "$1") : (number || match));
});
return result;
```
For example `stringToPath ".a" = ["", "a"]` and
`stringToPath "a[0].b" = ["a", "0", "b"]`. -/
def stringToPath (s : String) : List String :=
  (if s.data.head? = some '.' then [""] else []) ++ tokensGo s.data.length s.data

/--
lodash `castPath` for string inputs:
```js
if (isArray(value)) return value;
return isKey(value, object) ? [value] : stringToPath(toString(value));
```
For example `castPath "a]b" = ["a]b"]` (a direct key: no dot, no bracket
segment) while `castPath ".a" = ["", "a"]`. -/
def castPath (s : String) : List String :=
  if isKey s then [s] else stringToPath s

end Lodash

end HybridWebCacheModel

namespace HybridWebCacheModel

/-- The store of `MemoryStrategy`: a `Map<string, DataModel>` in insertion
order. -/
abbrev CacheState := List (String × DataModel)

namespace MemoryStrategy

/-- Model of `MemoryStrategy.getSync` (`get` is `Promise.resolve` of it). -/
def getSync (st : CacheState) (key : String) : Option DataModel :=
  listLookup key st

/-- Model of `MemoryStrategy.setSync`: `this.storage.set(key, data)`. -/
def setSync (st : CacheState) (key : String) (data : DataModel) : CacheState :=
  listUpsert key data st

/-- Model of `MemoryStrategy.hasSync`: `this.storage.has(key)`. -/
def hasSync (st : CacheState) (key : String) : Bool :=
  (listLookup key st).isSome

/-- Source:
`MemoryStrategy.unsetSync`:
```ts
if (this.storage.size === 0) return false;
if (!key) { this.storage.clear(); return this.storage.size === 0; }
return this.storage.delete(key);
```
`Map.delete` returns whether the key was present. -/
def unsetSync (st : CacheState) (key : Option String) : Bool × CacheState :=
  if st.length = 0 then (false, st)
  else
    match key with
    | none => (true, [])
    | some k => (hasSync st k, listErase k st)

/-- Model of `MemoryStrategy.getAllSync`: the whole map, or `null` when empty. -/
def getAllSync (st : CacheState) : Option CacheState :=
  if st.length = 0 then none else some st

end MemoryStrategy

/-! ## The `HybridWebCache` facade

Embedded from the current (v0.3.3) `HybridWebCache` class.  The `*Sync`
methods and their `async` counterparts have identical bodies over the
memory-backed store, so each operation is modelled once.  `Date.now()` is
the explicit `now : Int` argument, and the `removeExpired` default is the
explicit `removeExpired : Bool` argument. -/

/-- Model of `prepareDataSet`: `expiresAt = ttlMs > 0 ? Date.now() + ttlMs : 0`. -/
def prepareDataSet (now : Int) (value : JValue) (ttl : TTL) : DataModel :=
  let ttlMs := Utils.convertTTLToMilliseconds ttl
  { value := value, expiresAt := if ttlMs > 0 then now + ttlMs else 0 }

/-- The document `set` starts from: `const obj = data?.value || {}`. -/
def baseDoc (st : CacheState) (key : String) : JValue :=
  match MemoryStrategy.getSync st key with
  | some data => if jsTruthy data.value then data.value else JValue.obj []
  | none => JValue.obj []

/-- Source:
`HybridWebCache.set` / `setSync` (after the null key-path guard):
```ts
const key = this.createKey(keyPath);
const data = await this.storageBase.get(key);
const obj = data?.value || {};
_set(obj as object, keyPath, value);
const dataSet = this.prepareDataSet(obj, ttl);
return this.storageBase.set(key, dataSet.data);
```
-/
def set (st : CacheState) (now : Int) (keyPath : List String) (value : JValue) (ttl : TTL) :
    CacheState :=
  let key := Utils.getKey (KeyPath.arr keyPath)
  MemoryStrategy.setSync st key (prepareDataSet now (Lodash.set (baseDoc st key) keyPath value) ttl)

/-- Model of `HybridWebCache.set` / `setSync` invoked with a STRING key
path: the same source lines as `set`, but `createKey` derives the storage
key with `Utils.getKey` from the raw string while `_set` addresses the
document through lodash `castPath` of that string — two independent parses
that need not agree (they disagree on `".a"` or `"a]b"`). -/
def setStr (st : CacheState) (now : Int) (s : String) (value : JValue) (ttl : TTL) : CacheState :=
  let key := Utils.getKey (KeyPath.str s)
  MemoryStrategy.setSync st key
    (prepareDataSet now (Lodash.set (baseDoc st key) (Lodash.castPath s) value) ttl)

/-- The count `Object.keys(data.value || {}).length` in `unset`: field count of an
object, index count of an array (`Object.keys` of a JS array lists its
indices), `0` for primitives and for `null` (the `|| {}` guard).  A JS
string exposes one key per character. -/
def objectKeysLength : JValue → Nat
  | .obj fs => fs.length
  | .arr xs => xs.length
  | .str s => s.length
  | _ => 0

/-- Source:
`HybridWebCache.unset(keyPath)` / `unsetSync(keyPath)`:
```ts
if (this.storageBase.length === 0) return false;
const key = this.createKey(keyPath);
const data = await this.storageBase.get(key);
if (data) {
  if (_unset(data.value, keyPath)) {
    if (Object.keys(data.value || {}).length > 0) {
      await this.storageBase.set(key, data);  // update
      return true;
    }
  }
  return this.storageBase.unset(key);
}
return false;
```
-/
def unset (st : CacheState) (keyPath : List String) : Bool × CacheState :=
  if st.length = 0 then (false, st)
  else
    let key := Utils.getKey (KeyPath.arr keyPath)
    match MemoryStrategy.getSync st key with
    | some data =>
      let r := Lodash.unset data.value keyPath
      if r.2 ∧ 0 < objectKeysLength r.1 then
        (true, MemoryStrategy.setSync st key { value := r.1, expiresAt := data.expiresAt })
      else
        MemoryStrategy.unsetSync st (some key)
    | none => (false, st)

/-- Model of `HybridWebCache.unset()` / `unsetSync()` without a key path: clear the
whole store (`if (this.storageBase.length === 0) return false` first). -/
def unsetAll (st : CacheState) : Bool × CacheState :=
  if st.length = 0 then (false, st)
  else MemoryStrategy.unsetSync st none

/-- Source:
`HybridWebCache.get` / `getSync` (after the null key-path guard):
```ts
const key = this.createKey(keyPath);
const data = await this.storageBase.get(key);
if (data) {
  const value = _get(data.value, keyPath);
  if (value === undefined) return;
  const isExpired = Utils.isExpired(data.expiresAt);
  if (removeExpired && isExpired) { await this.unset(keyPath); return; }
  return { value, expiresAt: data.expiresAt, isExpired };
}
return;
```
-/
def get (st : CacheState) (now : Int) (keyPath : List String) (removeExpired : Bool) :
    Option DataGetModel × CacheState :=
  let key := Utils.getKey (KeyPath.arr keyPath)
  match MemoryStrategy.getSync st key with
  | some data =>
    match Lodash.get data.value keyPath with
    | some value =>
      let isExp := Utils.isExpired data.expiresAt now
      if removeExpired ∧ isExp then (none, (unset st keyPath).2)
      else (some { value := value, expiresAt := data.expiresAt, isExpired := isExp }, st)
    | none => (none, st)
  | none => (none, st)

/-- Model of `keyPath.toString()` for an array key path: JS `Array.toString` joins
with commas. -/
def arrToString (segs : List String) : String :=
  String.intercalate "," segs

/-- Source:
`HybridWebCache.has` / `hasSync` (after the null key-path guard):
```ts
const key = this.createKey(keyPath);
if (key === keyPath.toString()) return this.storageBase.has(key);
const data = await this.get(keyPath);
return data !== undefined && data?.value !== null;
```
The inner `get` runs with the instance's default `removeExpired`. -/
def has (st : CacheState) (now : Int) (keyPath : List String) (removeExpired : Bool) :
    Bool × CacheState :=
  let key := Utils.getKey (KeyPath.arr keyPath)
  if key = arrToString keyPath then (MemoryStrategy.hasSync st key, st)
  else
    let r := get st now keyPath removeExpired
    match r.1 with
    | none => (false, r.2)
    | some d => (!(d.value matches JValue.null), r.2)

/-- Source:
`resetWith` / `resetWithSync`: clear everything, then store each provided
key with a fresh document `_set({}, key, value)` under `createKey(key)`.
Keys are modelled in parsed path form; `createKey` is the first segment. -/
def resetWith (st : CacheState) (now : Int) (keyValues : List (List String × JValue)) (ttl : TTL) :
    CacheState :=
  let cleared := (unsetAll st).2
  keyValues.foldl
    (fun acc kv =>
      MemoryStrategy.setSync acc (Utils.getKey (KeyPath.arr kv.1))
        (prepareDataSet now (Lodash.set (JValue.obj []) kv.1 kv.2) ttl))
    cleared

/-- First entry of `Object.entries(data.value ?? { key, value: null })` in
`getAll`: for the `null` fallback the literal's first property is named
`"key"` and holds the key string; an empty object (or any value with no own
enumerable properties) makes the `[iKey, iValue] = ...[0]` destructuring
throw, modelled as `none`. -/
def entriesFirst (key : String) : JValue → Option (String × JValue)
  | .null => some ("key", .str key)
  | .obj [] => none
  | .obj (kv :: _) => some kv
  | .arr [] => none
  | .arr (x :: _) => some ("0", x)
  | .str s =>
    match s.data with
    | [] => none
    | c :: _ => some ("0", .str (String.mk [c]))
  | _ => none

/-- The loop body of `getAll`, over a snapshot of the backend map.  On an
expired item with `removeExpired` set, `this.unset(iKey)` runs with the
derived root key (modelled as the single-segment path `[iKey]`). -/
def getAllGo (now : Int) (removeExpired : Bool) :
    List (String × DataModel) → CacheState → List (String × DataGetModel) →
    Except String (List (String × DataGetModel) × CacheState)
  | [], st, acc => .ok (acc, st)
  | (key, data) :: rest, st, acc =>
    match entriesFirst key data.value with
    | none => .error "TypeError: destructuring of undefined"
    | some (iKey, iValue) =>
      let isExp := Utils.isExpired data.expiresAt now
      if removeExpired ∧ isExp then getAllGo now removeExpired rest (unset st [iKey]).2 acc
      else
        getAllGo now removeExpired rest st
          (acc ++ [(iKey, { value := iValue, expiresAt := data.expiresAt, isExpired := isExp })])

/-- Source:
`HybridWebCache.getAll` / `getAllSync`:
```ts
const allItems = await this.storageBase.getAll();
if (!allItems) return null;
const result = new Map();
for (const [key, data] of allItems) {
  const [iKey, iValue] = Object.entries(data.value ?? { key, value: null })[0];
  const isExpired = Utils.isExpired(data.expiresAt);
  if (removeExpired && isExpired) { await this.unset(iKey); continue; }
  result.set(iKey, { value: iValue, expiresAt: data.expiresAt, isExpired });
}
return result.size > 0 ? result : null;
```
The destructuring throw is `Except.error`; the `null` result is `none`. -/
def getAll (st : CacheState) (now : Int) (removeExpired : Bool) :
    Except String (Option (List (String × DataGetModel)) × CacheState) :=
  match MemoryStrategy.getAllSync st with
  | none => .ok (none, st)
  | some items =>
    (getAllGo now removeExpired items st []).map
      (fun r => (if 0 < r.1.length then some r.1 else none, r.2))

/-! ### Null key-path guards (current facade)

`set`, `setSync`, `get`, `getSync`, `has` and `hasSync` begin with
```ts
if (keyPath === undefined || keyPath === null) {
  throw new Error("KeyPath cannot be undefined or null.");
}
```
A nullable key path is `Option (List String)`; the thrown / rejected error
is `Except.error`, produced before the storage backend is consulted, with
the state returned unchanged. -/

/-- The message of the invalid key path error. -/
def invalidKeyPathMsg : String := "KeyPath cannot be undefined or null."

/-- Model of `set` / `setSync` with the null key-path guard. -/
def setChecked (st : CacheState) (now : Int) (keyPath : Option (List String)) (value : JValue)
    (ttl : TTL) : Except String Unit × CacheState :=
  match keyPath with
  | none => (.error invalidKeyPathMsg, st)
  | some p => (.ok (), set st now p value ttl)

/-- Model of `get` / `getSync` with the null key-path guard. -/
def getChecked (st : CacheState) (now : Int) (keyPath : Option (List String))
    (removeExpired : Bool) : Except String (Option DataGetModel) × CacheState :=
  match keyPath with
  | none => (.error invalidKeyPathMsg, st)
  | some p =>
    let r := get st now p removeExpired
    (.ok r.1, r.2)

/-- Model of `has` / `hasSync` with the null key-path guard. -/
def hasChecked (st : CacheState) (now : Int) (keyPath : Option (List String))
    (removeExpired : Bool) : Except String Bool × CacheState :=
  match keyPath with
  | none => (.error invalidKeyPathMsg, st)
  | some p =>
    let r := has st now p removeExpired
    (.ok r.1, r.2)

end HybridWebCacheModel

namespace HybridWebCacheModel

/-! ## `StorageFactory.createStorage`

The availability probes (`Utils.isSessionStorageAvailable`, …) depend on the
host environment; they are abstracted as the boolean fields of `Env`.  The
`StorageEngine` enum is numeric in TypeScript (`Auto = 0, LocalStorage = 1,
IndexedDB = 2, SessionStorage = 3, Memory = 4`), and the `switch` has a
`default` arm, so the requested kind is modelled as an arbitrary `Int`. -/

/-- Results of the availability probes in the host environment. -/
structure Env where
  sessionStorageAvailable : Bool
  localStorageAvailable : Bool
  indexedDBAvailable : Bool

/-- The concrete strategy classes `createStorage` can construct. -/
inductive Strategy where
  | sessionStorage
  | localStorage
  | indexedDB
  | memory
  deriving DecidableEq, Repr

namespace StorageEngine

/-- Enum value `StorageEngine.Auto = 0`. -/
def Auto : Int := 0

/-- Enum value `StorageEngine.LocalStorage = 1`. -/
def LocalStorage : Int := 1

/-- Enum value `StorageEngine.IndexedDB = 2`. -/
def IndexedDB : Int := 2

/-- Enum value `StorageEngine.SessionStorage = 3`. -/
def SessionStorage : Int := 3

/-- Enum value `StorageEngine.Memory = 4`. -/
def Memory : Int := 4

end StorageEngine

/-- Source:
`StorageFactory.createStorage` (`core/StorageFactory.ts`):
```ts
switch (type) {
  case StorageEngine.SessionStorage:
    if (!Utils.isSessionStorageAvailable()) throw new Error("SessionStorage is not available");
    return new SessionStorageStrategy(baseName);
  case StorageEngine.LocalStorage:
    if (!Utils.isLocalStorageAvailable()) throw new Error("LocalStorage is not available");
    return new LocalStorageStrategy(baseName);
  case StorageEngine.IndexedDB:
    if (!Utils.isIndexedDBAvailable()) throw new Error("IndexedDB is not available");
    return new IndexedDBStrategy(baseName, storeName);
  case StorageEngine.Auto:
    if (Utils.isLocalStorageAvailable()) return new LocalStorageStrategy(baseName);
    if (Utils.isIndexedDBAvailable()) return new IndexedDBStrategy(baseName, storeName);
    if (Utils.isSessionStorageAvailable()) return new SessionStorageStrategy(baseName);
    return new MemoryStrategy();
  default:
    return new MemoryStrategy();
}
```
-/
def createStorage (env : Env) (type : Int) : Except String Strategy :=
  if type = StorageEngine.SessionStorage then
    if !env.sessionStorageAvailable then .error "SessionStorage is not available"
    else .ok .sessionStorage
  else if type = StorageEngine.LocalStorage then
    if !env.localStorageAvailable then .error "LocalStorage is not available"
    else .ok .localStorage
  else if type = StorageEngine.IndexedDB then
    if !env.indexedDBAvailable then .error "IndexedDB is not available"
    else .ok .indexedDB
  else if type = StorageEngine.Auto then
    if env.localStorageAvailable then .ok .localStorage
    else if env.indexedDBAvailable then .ok .indexedDB
    else if env.sessionStorageAvailable then .ok .sessionStorage
    else .ok .memory
  else .ok .memory

/-- Whether a strategy's backing store is available in `env` (the volatile
memory strategy always is). -/
def strategyAvailable (env : Env) : Strategy → Bool
  | .sessionStorage => env.sessionStorageAvailable
  | .localStorage => env.localStorageAvailable
  | .indexedDB => env.indexedDBAvailable
  | .memory => true

/-- The fixed `Auto` probing priority stated by the specification:
durable-sync (LocalStorage), durable-async (IndexedDB), isolated
(SessionStorage), volatile (Memory). -/
def autoPriority : List Strategy :=
  [.localStorage, .indexedDB, .sessionStorage, .memory]

end HybridWebCacheModel

namespace HybridWebCacheModel

/-! ## Path predicates and reachable states -/

/-- The walk of `Lodash.set` stays inside representable JSON semantics:
non-empty path, never an out-of-range/non-index segment applied to an
existing array, and never a primitive top-level document.  (In JS, a
non-index segment on an array would set a named property on the array
object, which JSON documents cannot represent.) -/
def Lodash.setPathOk : JValue → List String → Bool
  | .obj _, [_] => true
  | .arr _, [s] => (Lodash.toIndex? s).isSome
  | .obj fs, s :: s2 :: rest =>
    Lodash.setPathOk (Lodash.nextContainer (listLookup s fs) s2) (s2 :: rest)
  | .arr xs, s :: s2 :: rest =>
    match Lodash.toIndex? s with
    | some i => Lodash.setPathOk (Lodash.nextContainer xs[i]? s2) (s2 :: rest)
    | none => false
  | _, _ => false

/-- The path addresses an existing field of an object parent: the walk
descends through existing objects/array slots and the final parent is an
object that owns the last segment. -/
def Lodash.parentObjHas : JValue → List String → Bool
  | .obj fs, [s] => (listLookup s fs).isSome
  | .obj fs, s :: s2 :: rest =>
    match listLookup s fs with
    | some c => Lodash.parentObjHas c (s2 :: rest)
    | none => false
  | .arr xs, s :: s2 :: rest =>
    match Lodash.toIndex? s with
    | some i =>
      match xs[i]? with
      | some c => Lodash.parentObjHas c (s2 :: rest)
      | none => false
    | none => false
  | _, _ => false

/-- The claimed behaviour of `Utils.getKey` as the specification states it:
for an array, the first element (empty string when empty); for a string,
the substring strictly before the first `.` or `[`. -/
def getKeyClaim : KeyPath → String
  | .arr segs =>
    match segs with
    | [] => ""
    | s :: _ => s
  | .str s => String.mk (s.data.takeWhile fun c => !(c == '.' || c == '['))

/-- Cache states reachable from the empty store through the mutating facade
operations (`set`/`setSync`, path and full `unset`/`unsetSync`,
`resetWith`/`resetWithSync`) with non-empty key paths: array key paths in
parsed form, and string key paths on which `Utils.getKey` agrees with the
first segment of the lodash `castPath` parse.  String key paths where the
two parses disagree (such as `".a"` or `"a]b"`) are not admitted: they
store an entry whose first key differs from its root key, refuting the
unrestricted invariant. -/
inductive Reachable : CacheState → Prop where
  | empty : Reachable []
  | setStep (st : CacheState) (now : Int) (p : List String) (v : JValue) (ttl : TTL) :
      Reachable st → p ≠ [] → Reachable (set st now p v ttl)
  | setStrStep (st : CacheState) (now : Int) (s : String) (v : JValue) (ttl : TTL) :
      Reachable st → Lodash.castPath s ≠ [] →
      Utils.getKey (KeyPath.str s) = Utils.getKey (KeyPath.arr (Lodash.castPath s)) →
      Reachable (setStr st now s v ttl)
  | unsetStep (st : CacheState) (p : List String) :
      Reachable st → p ≠ [] → Reachable (unset st p).2
  | unsetAllStep (st : CacheState) : Reachable st → Reachable (unsetAll st).2
  | resetStep (st : CacheState) (now : Int) (kvs : List (List String × JValue)) (ttl : TTL) :
      Reachable st → (∀ kv ∈ kvs, kv.1 ≠ []) → Reachable (resetWith st now kvs ttl)

/-- Every stored entry's document is the single-field object wrapping its
own root key — the shape `set` always persists and `getAll` relies on. -/
def StateOk (st : CacheState) : Prop :=
  ∀ kv ∈ st, ∃ sub, kv.2.value = JValue.obj [(kv.1, sub)]

/-! ## C5 — TTL engine contract -/

/-- C5: for every `set` with TTL `t`, the stored `expiresAt` is
`now + toMillis t` when `toMillis t > 0` and `0` (never expires) otherwise;
and `isExpired` is `false` whenever `expiresAt ≤ 0`, and for positive
`expiresAt` it is `true` exactly when `now ≥ expiresAt`. -/
theorem ttl_engine_contract (now : Int) (v : JValue) (ttl : TTL) (e : Int) :
    (0 < Utils.convertTTLToMilliseconds ttl →
      (prepareDataSet now v ttl).expiresAt = now + Utils.convertTTLToMilliseconds ttl) ∧
    (Utils.convertTTLToMilliseconds ttl ≤ 0 → (prepareDataSet now v ttl).expiresAt = 0) ∧
    (e ≤ 0 → Utils.isExpired e now = false) ∧
    (0 < e → (Utils.isExpired e now = true ↔ now ≥ e)) := by
  unfold prepareDataSet Utils.isExpired
  refine ⟨fun h => ?_, fun h => ?_, fun h => ?_, fun h => ?_⟩
  · simp only [if_pos h]
  · simp only [if_neg (by omega : ¬ Utils.convertTTLToMilliseconds ttl > 0)]
  · simp only [if_neg (by omega : ¬ e > 0), decide_eq_false_iff_not]
  · simp only [if_pos h, ge_iff_le, decide_eq_true_eq]

/-- Concrete instantiation of `ttl_engine_contract`. -/
theorem ttl_engine_contract_witness :
    (prepareDataSet 100 JValue.null (TTL.ms 50)).expiresAt =
        100 + Utils.convertTTLToMilliseconds (TTL.ms 50) ∧
      (prepareDataSet 100 JValue.null (TTL.ms 0)).expiresAt = 0 ∧
      Utils.isExpired (-5) 100 = false ∧
      (Utils.isExpired 90 100 = true ↔ (100 : Int) ≥ 90) :=
  ⟨(ttl_engine_contract 100 JValue.null (TTL.ms 50) 0).1 (by decide),
    (ttl_engine_contract 100 JValue.null (TTL.ms 0) 0).2.1 (by decide),
    (ttl_engine_contract 100 JValue.null (TTL.ms 0) (-5)).2.2.1 (by decide),
    (ttl_engine_contract 100 JValue.null (TTL.ms 0) 90).2.2.2 (by decide)⟩

/-! ## C6 — null key path rejected before backend access -/

/-- C6: for a null/undefined key path, `set`/`setSync`, `get`/`getSync` and
`has`/`hasSync` fail with the invalid key path error and leave the stored
state unchanged (the guard precedes every backend access). -/
theorem null_keyPath_rejected (st : CacheState) (now : Int) (v : JValue) (ttl : TTL)
    (removeExpired : Bool) :
    setChecked st now none v ttl = (.error invalidKeyPathMsg, st) ∧
    getChecked st now none removeExpired = (.error invalidKeyPathMsg, st) ∧
    hasChecked st now none removeExpired = (.error invalidKeyPathMsg, st) :=
  ⟨rfl, rfl, rfl⟩

/-! ## C7 — StorageFactory selection and fallback -/

/-- C7: explicitly requesting SessionStorage, LocalStorage or IndexedDB when
its probe fails throws an error naming that backend; `Auto` returns the
first available strategy in the fixed priority order LocalStorage,
IndexedDB, SessionStorage, Memory; any unrecognized kind value yields the
Memory strategy. -/
theorem createStorage_contract (env : Env) (t : Int) :
    (env.sessionStorageAvailable = false →
      createStorage env StorageEngine.SessionStorage = .error "SessionStorage is not available") ∧
    (env.localStorageAvailable = false →
      createStorage env StorageEngine.LocalStorage = .error "LocalStorage is not available") ∧
    (env.indexedDBAvailable = false →
      createStorage env StorageEngine.IndexedDB = .error "IndexedDB is not available") ∧
    createStorage env StorageEngine.Auto =
      .ok ((autoPriority.find? (strategyAvailable env)).getD .memory) ∧
    (t ≠ StorageEngine.Auto → t ≠ StorageEngine.LocalStorage → t ≠ StorageEngine.IndexedDB →
      t ≠ StorageEngine.SessionStorage → createStorage env t = .ok .memory) := by
  obtain ⟨s, l, i⟩ := env
  refine ⟨fun hs => ?_, fun hl => ?_, fun hi => ?_, ?_, fun h0 h1 h2 h3 => ?_⟩
  · subst hs; rfl
  · subst hl
    simp [createStorage, StorageEngine.LocalStorage, StorageEngine.SessionStorage]
  · subst hi
    simp [createStorage, StorageEngine.IndexedDB, StorageEngine.SessionStorage,
      StorageEngine.LocalStorage]
  · cases s <;> cases l <;> cases i <;> rfl
  · simp only [createStorage, if_neg h3, if_neg h1, if_neg h2, if_neg h0]

/-- Concrete instantiation of `createStorage_contract`: no probe succeeds,
so an explicit SessionStorage request fails, `Auto` falls back to Memory,
and the out-of-range kind `7` yields Memory. -/
theorem createStorage_contract_witness :
    createStorage ⟨false, false, false⟩ StorageEngine.SessionStorage =
        .error "SessionStorage is not available" ∧
      createStorage ⟨false, false, false⟩ StorageEngine.Auto =
        .ok ((autoPriority.find? (strategyAvailable ⟨false, false, false⟩)).getD .memory) ∧
      createStorage ⟨false, false, false⟩ 7 = .ok .memory :=
  ⟨(createStorage_contract ⟨false, false, false⟩ 0).1 rfl,
    (createStorage_contract ⟨false, false, false⟩ 0).2.2.2.1,
    (createStorage_contract ⟨false, false, false⟩ 7).2.2.2.2 (by decide) (by decide) (by decide)
      (by decide)⟩

end HybridWebCacheModel

namespace HybridWebCacheModel

/-! ## Association-list and array lemmas -/

theorem listLookup_upsert_self {β : Type} (key : String) (v : β) (l : List (String × β)) :
    listLookup key (listUpsert key v l) = some v := by
  induction l with
  | nil => simp [listLookup, listUpsert]
  | cons kv rest ih =>
    obtain ⟨k, w⟩ := kv
    by_cases h : k = key
    · simp [listLookup, listUpsert, h]
    · simp [listLookup, listUpsert, h, ih]

theorem listLookup_update_self {β : Type} (key : String) (v c : β) (l : List (String × β))
    (h : listLookup key l = some c) : listLookup key (listUpdate key v l) = some v := by
  induction l with
  | nil => simp [listLookup] at h
  | cons kv rest ih =>
    obtain ⟨k, w⟩ := kv
    by_cases hk : k = key
    · simp [listLookup, listUpdate, hk]
    · simp only [listLookup, if_neg hk] at h
      simp [listLookup, listUpdate, hk, ih h]

theorem listLookup_erase_self {β : Type} (key : String) (l : List (String × β)) :
    listLookup key (listErase key l) = none := by
  induction l with
  | nil => rfl
  | cons kv rest ih =>
    obtain ⟨k, w⟩ := kv
    by_cases h : k = key
    · simpa [listErase, h] using ih
    · simpa [listErase, listLookup, h] using ih

theorem listUpdate_length {β : Type} (key : String) (v : β) (l : List (String × β)) :
    (listUpdate key v l).length = l.length := by
  induction l with
  | nil => rfl
  | cons kv rest ih =>
    obtain ⟨k, w⟩ := kv
    by_cases h : k = key <;> simp [listUpdate, h, ih]

theorem mem_listUpsert {β : Type} (key : String) (v : β) :
    ∀ (l : List (String × β)) (kv : String × β),
      kv ∈ listUpsert key v l → kv = (key, v) ∨ kv ∈ l := by
  intro l
  induction l with
  | nil =>
    intro kv h
    simp [listUpsert] at h
    exact Or.inl h
  | cons hd rest ih =>
    intro kv h
    obtain ⟨k, w⟩ := hd
    simp only [listUpsert] at h
    split at h
    · rename_i hk
      rcases List.mem_cons.mp h with h1 | h1
      · exact Or.inl (by rw [h1, hk])
      · exact Or.inr (List.mem_cons_of_mem _ h1)
    · rcases List.mem_cons.mp h with h1 | h1
      · exact Or.inr (by rw [h1]; exact List.mem_cons_self _ _)
      · rcases ih kv h1 with h2 | h2
        · exact Or.inl h2
        · exact Or.inr (List.mem_cons_of_mem _ h2)

theorem mem_listErase {β : Type} (key : String) (l : List (String × β)) (kv : String × β)
    (h : kv ∈ listErase key l) : kv ∈ l :=
  List.mem_of_mem_filter h

theorem arraySet_getElem?_self (xs : List JValue) (i : Nat) (v : JValue) :
    (Lodash.arraySet xs i v)[i]? = some v := by
  unfold Lodash.arraySet
  by_cases h : i < xs.length
  · simp [if_pos h, h]
  · rw [if_neg h]
    rw [List.getElem?_append_right (by simp; omega)]
    have h0 : i - (xs ++ List.replicate (i - xs.length) JValue.null).length = 0 := by
      simp; omega
    rw [h0]
    rfl

theorem arraySet_length_of_lt (xs : List JValue) (i : Nat) (v : JValue) (h : i < xs.length) :
    (Lodash.arraySet xs i v).length = xs.length := by
  simp [Lodash.arraySet, if_pos h]

end HybridWebCacheModel

namespace HybridWebCacheModel

/-! ## Unfolding lemmas for the path walkers -/

theorem Lodash.get_cons_obj (fs : List (String × JValue)) (a : String) (t : List String)
    (c : JValue) (hc : listLookup a fs = some c) :
    Lodash.get (.obj fs) (a :: t) = Lodash.get c t := by
  simp [Lodash.get, hc]

theorem Lodash.get_cons_arr (xs : List JValue) (a : String) (t : List String) (i : Nat)
    (hi : Lodash.toIndex? a = some i) (c : JValue) (hc : xs[i]? = some c) :
    Lodash.get (.arr xs) (a :: t) = Lodash.get c t := by
  simp [Lodash.get, hi, hc]

theorem Lodash.get_cons_obj_none (fs : List (String × JValue)) (a : String) (t : List String)
    (hc : listLookup a fs = none) :
    Lodash.get (.obj fs) (a :: t) = none := by
  simp [Lodash.get, hc]

theorem Lodash.unset_cons_obj (fs : List (String × JValue)) (a : String) (t : List String)
    (h : t ≠ []) (c : JValue) (hc : listLookup a fs = some c) :
    Lodash.unset (.obj fs) (a :: t) =
      (.obj (listUpdate a (Lodash.unset c t).1 fs), (Lodash.unset c t).2) := by
  cases t with
  | nil => cases h rfl
  | cons b t2 => simp [Lodash.unset, hc]

theorem Lodash.unset_cons_arr (xs : List JValue) (a : String) (t : List String) (h : t ≠ [])
    (i : Nat) (hi : Lodash.toIndex? a = some i) (c : JValue) (hc : xs[i]? = some c) :
    Lodash.unset (.arr xs) (a :: t) =
      (.arr (xs.set i (Lodash.unset c t).1), (Lodash.unset c t).2) := by
  cases t with
  | nil => cases h rfl
  | cons b t2 => simp [Lodash.unset, hi, hc]

/-- The flag returned by `_unset` is `true` in every representable case
(`delete` only fails on non-configurable properties, which plain JSON data
does not have). -/
theorem Lodash.unset_snd_true (p : List String) : ∀ doc : JValue, (Lodash.unset doc p).2 = true := by
  induction p with
  | nil => intro doc; rfl
  | cons a t ih =>
    intro doc
    cases t with
    | nil =>
      show (Lodash.deleteKey doc a).2 = true
      cases doc with
      | arr xs =>
        simp only [Lodash.deleteKey]
        rcases Lodash.toIndex? a with _ | i
        · rfl
        · by_cases h : i < xs.length <;> simp [h]
      | _ => rfl
    | cons b t2 =>
      cases doc with
      | obj fs =>
        rcases hc : listLookup a fs with _ | c
        · simp [Lodash.unset, hc]
        · rw [Lodash.unset_cons_obj fs a (b :: t2) (by simp) c hc]
          exact ih c
      | arr xs =>
        rcases hi : Lodash.toIndex? a with _ | i
        · simp [Lodash.unset, hi]
        · rcases hx : xs[i]? with _ | c
          · simp [Lodash.unset, hi, hx]
          · rw [Lodash.unset_cons_arr xs a (b :: t2) (by simp) i hi c hx]
            exact ih c
      | null => rfl
      | bool b0 => rfl
      | num n => rfl
      | str s0 => rfl

/-- Writing `v` at a path accepted by `setPathOk` makes `v` readable back at
that path: `_get (_set doc p v) p = v`. -/
theorem Lodash.get_set_of_ok (v : JValue) (p : List String) :
    ∀ doc : JValue, Lodash.setPathOk doc p = true →
      Lodash.get (Lodash.set doc p v) p = some v := by
  induction p with
  | nil => intro doc h; simp [Lodash.setPathOk] at h
  | cons a t ih =>
    intro doc h
    cases t with
    | nil =>
      cases doc with
      | obj fs =>
        show Lodash.get (.obj (listUpsert a v fs)) [a] = some v
        simp [Lodash.get, listLookup_upsert_self]
      | arr xs =>
        simp only [Lodash.setPathOk, Option.isSome] at h
        rcases hi : Lodash.toIndex? a with _ | i
        · rw [hi] at h; simp at h
        · show Lodash.get (Lodash.set (.arr xs) [a] v) [a] = some v
          simp only [Lodash.set, hi]
          simp [Lodash.get, hi, arraySet_getElem?_self]
      | null => simp [Lodash.setPathOk] at h
      | bool b0 => simp [Lodash.setPathOk] at h
      | num n => simp [Lodash.setPathOk] at h
      | str s0 => simp [Lodash.setPathOk] at h
    | cons b t2 =>
      cases doc with
      | obj fs =>
        simp only [Lodash.setPathOk] at h
        simp only [Lodash.set]
        rw [Lodash.get_cons_obj _ _ _ _ (listLookup_upsert_self a _ fs)]
        exact ih _ h
      | arr xs =>
        simp only [Lodash.setPathOk] at h
        rcases hi : Lodash.toIndex? a with _ | i
        · rw [hi] at h; simp at h
        · rw [hi] at h
          simp only [Lodash.set, hi]
          rw [Lodash.get_cons_arr _ _ _ i hi _ (arraySet_getElem?_self xs i _)]
          exact ih _ h
      | null => simp [Lodash.setPathOk] at h
      | bool b0 => simp [Lodash.setPathOk] at h
      | num n => simp [Lodash.setPathOk] at h
      | str s0 => simp [Lodash.setPathOk] at h

end HybridWebCacheModel

namespace HybridWebCacheModel

/-- After `_unset doc p` on a path addressing an existing object field, the
field is gone: `_get` at `p` answers `undefined`. -/
theorem Lodash.get_unset_of_parentObjHas (p : List String) :
    ∀ doc : JValue, Lodash.parentObjHas doc p = true →
      Lodash.get (Lodash.unset doc p).1 p = none := by
  induction p with
  | nil => intro doc h; simp [Lodash.parentObjHas] at h
  | cons a t ih =>
    intro doc h
    cases t with
    | nil =>
      cases doc with
      | obj fs =>
        show Lodash.get (Lodash.deleteKey (.obj fs) a).1 [a] = none
        simp [Lodash.deleteKey, Lodash.get, listLookup_erase_self]
      | arr xs => simp [Lodash.parentObjHas] at h
      | null => simp [Lodash.parentObjHas] at h
      | bool b0 => simp [Lodash.parentObjHas] at h
      | num n => simp [Lodash.parentObjHas] at h
      | str s0 => simp [Lodash.parentObjHas] at h
    | cons b t2 =>
      cases doc with
      | obj fs =>
        simp only [Lodash.parentObjHas] at h
        rcases hc : listLookup a fs with _ | c
        · simp only [hc] at h; exact absurd h (by simp)
        · simp only [hc] at h
          rw [Lodash.unset_cons_obj fs a (b :: t2) (by simp) c hc]
          rw [Lodash.get_cons_obj _ _ _ _ (listLookup_update_self a _ c fs hc)]
          exact ih c h
      | arr xs =>
        simp only [Lodash.parentObjHas] at h
        rcases hi : Lodash.toIndex? a with _ | i
        · simp only [hi] at h; exact absurd h (by simp)
        · simp only [hi] at h
          rcases hx : xs[i]? with _ | c
          · simp only [hx] at h; exact absurd h (by simp)
          · simp only [hx] at h
            rw [Lodash.unset_cons_arr xs a (b :: t2) (by simp) i hi c hx]
            have hlt : i < xs.length := by
              by_contra hge
              rw [List.getElem?_eq_none (by omega)] at hx
              exact Option.noConfusion hx
            rw [Lodash.get_cons_arr _ _ _ i hi (Lodash.unset c (b :: t2)).1
              (by rw [List.getElem?_set_self hlt])]
            exact ih c h
      | null => simp [Lodash.parentObjHas] at h
      | bool b0 => simp [Lodash.parentObjHas] at h
      | num n => simp [Lodash.parentObjHas] at h
      | str s0 => simp [Lodash.parentObjHas] at h

/-- Deletion lemma: `_unset doc (q ++ [s])` acts on the parent found at `q` by `delete
parent[s]`: reading the parent back at `q` afterwards shows exactly that
deletion. -/
theorem Lodash.get_unset_append (s : String) (q : List String) :
    ∀ doc parent : JValue, Lodash.get doc q = some parent →
      Lodash.get (Lodash.unset doc (q ++ [s])).1 q = some (Lodash.deleteKey parent s).1 := by
  induction q with
  | nil =>
    intro doc parent h
    simp only [Lodash.get, Option.some.injEq] at h
    subst h
    simp only [List.nil_append]
    simp only [Lodash.get, Option.some.injEq]
    cases doc <;> simp [Lodash.unset]
  | cons a q2 ih =>
    intro doc parent h
    cases doc with
    | obj fs =>
      rcases hc : listLookup a fs with _ | c
      · rw [Lodash.get_cons_obj_none fs a q2 hc] at h
        exact Option.noConfusion h
      · rw [Lodash.get_cons_obj fs a q2 c hc] at h
        rw [show (a :: q2) ++ [s] = a :: (q2 ++ [s]) from rfl]
        rw [Lodash.unset_cons_obj fs a (q2 ++ [s]) (by simp) c hc]
        rw [Lodash.get_cons_obj _ _ _ _ (listLookup_update_self a _ c fs hc)]
        exact ih c parent h
    | arr xs =>
      rcases hi : Lodash.toIndex? a with _ | i
      · simp only [Lodash.get, hi] at h
        exact Option.noConfusion h
      · rcases hx : xs[i]? with _ | c
        · simp only [Lodash.get, hi, hx] at h
          exact Option.noConfusion h
        · rw [Lodash.get_cons_arr xs a q2 i hi c hx] at h
          rw [show (a :: q2) ++ [s] = a :: (q2 ++ [s]) from rfl]
          rw [Lodash.unset_cons_arr xs a (q2 ++ [s]) (by simp) i hi c hx]
          have hlt : i < xs.length := by
            by_contra hge
            rw [List.getElem?_eq_none (by omega)] at hx
            exact Option.noConfusion hx
          rw [Lodash.get_cons_arr _ _ _ i hi (Lodash.unset c (q2 ++ [s])).1
            (by rw [List.getElem?_set_self hlt])]
          exact ih c parent h
    | null => simp [Lodash.get] at h
    | bool b0 => simp [Lodash.get] at h
    | num n => simp [Lodash.get] at h
    | str s0 => simp [Lodash.get] at h

/-! ## Store-level lemmas -/

theorem MemoryStrategy.getSync_setSync_self (st : CacheState) (key : String) (d : DataModel) :
    MemoryStrategy.getSync (MemoryStrategy.setSync st key d) key = some d :=
  listLookup_upsert_self key d st

theorem MemoryStrategy.getSync_ne_nil (st : CacheState) (key : String) (d : DataModel)
    (h : MemoryStrategy.getSync st key = some d) : st ≠ [] := by
  intro hnil
  subst hnil
  exact Option.noConfusion h

end HybridWebCacheModel

namespace HybridWebCacheModel

/-! ## Facade-level support lemmas -/

theorem getKey_arr_cons (a : String) (t : List String) :
    Utils.getKey (KeyPath.arr (a :: t)) = a := rfl

theorem getKey_arr_append (q r : List String) (h : q ≠ []) :
    Utils.getKey (KeyPath.arr (q ++ r)) = Utils.getKey (KeyPath.arr q) := by
  cases q with
  | nil => cases h rfl
  | cons a t => rfl

theorem listLookup_mem {β : Type} (key : String) (l : List (String × β)) (v : β)
    (h : listLookup key l = some v) : (key, v) ∈ l := by
  induction l with
  | nil => exact Option.noConfusion h
  | cons kv rest ih =>
    obtain ⟨k, w⟩ := kv
    by_cases hk : k = key
    · subst hk
      simp [listLookup] at h
      subst h
      exact List.mem_cons_self _ _
    · simp only [listLookup, if_neg hk] at h
      exact List.mem_cons_of_mem _ (ih h)

/-! ## C1 — round-trip law -/

/-- C1: `set(p, v, ttl)` followed by `get(p)` (no intervening mutation of
`p`'s root key) returns `v` with `isExpired = false`, provided the computed
expiry has not yet elapsed at read time.  `setPathOk` confines the walk to
representable JSON semantics (it holds in particular for every fresh root
key). -/
theorem set_get_roundtrip (st : CacheState) (now1 now2 : Int) (p : List String) (v : JValue)
    (ttl : TTL) (removeExpired : Bool)
    (hok : Lodash.setPathOk (baseDoc st (Utils.getKey (KeyPath.arr p))) p = true)
    (httl : 0 < Utils.convertTTLToMilliseconds ttl →
      now2 < now1 + Utils.convertTTLToMilliseconds ttl) :
    ∃ e : Int,
      get (set st now1 p v ttl) now2 p removeExpired =
        (some { value := v, expiresAt := e, isExpired := false }, set st now1 p v ttl) := by
  have hstore : MemoryStrategy.getSync (set st now1 p v ttl) (Utils.getKey (KeyPath.arr p)) =
      some (prepareDataSet now1
        (Lodash.set (baseDoc st (Utils.getKey (KeyPath.arr p))) p v) ttl) :=
    MemoryStrategy.getSync_setSync_self st _ _
  have hval : Lodash.get (prepareDataSet now1
      (Lodash.set (baseDoc st (Utils.getKey (KeyPath.arr p))) p v) ttl).value p = some v :=
    Lodash.get_set_of_ok v p _ hok
  have hexp : Utils.isExpired (prepareDataSet now1
      (Lodash.set (baseDoc st (Utils.getKey (KeyPath.arr p))) p v) ttl).expiresAt now2 = false := by
    show Utils.isExpired
      (if Utils.convertTTLToMilliseconds ttl > 0
        then now1 + Utils.convertTTLToMilliseconds ttl else 0) now2 = false
    unfold Utils.isExpired
    by_cases hms : Utils.convertTTLToMilliseconds ttl > 0
    · rw [if_pos hms]
      have h2 := httl hms
      split
      · simp only [decide_eq_false_iff_not]
        omega
      · rfl
    · rw [if_neg hms]
      rfl
  refine ⟨(prepareDataSet now1
      (Lodash.set (baseDoc st (Utils.getKey (KeyPath.arr p))) p v) ttl).expiresAt, ?_⟩
  unfold get
  simp only [hstore, hval, hexp]
  simp

/-- Concrete instantiation of `set_get_roundtrip`: fresh store, path
`user.name`, TTL 5000 ms, read at time 3. -/
theorem set_get_roundtrip_witness :
    ∃ e : Int,
      get (set [] 0 ["user", "name"] (JValue.str "Jane") (TTL.ms 5000)) 3 ["user", "name"] true =
        (some { value := JValue.str "Jane", expiresAt := e, isExpired := false },
          set [] 0 ["user", "name"] (JValue.str "Jane") (TTL.ms 5000)) :=
  set_get_roundtrip [] 0 3 ["user", "name"] (JValue.str "Jane") (TTL.ms 5000) true
    (by rfl) (by intro h; decide)

/-! ## C2 — expired entries: removal vs. visibility -/

/-- C2: for an entry whose stored `expiresAt` is expired at read time and a
path that resolves to a value, `get(p, removeExpired := true)` performs the
unset of `p` and answers "not found", while `get(p, removeExpired := false)`
returns the stored value with `isExpired = true`. -/
theorem get_expired_contract (st : CacheState) (now : Int) (p : List String) (e : DataModel)
    (v : JValue)
    (hst : MemoryStrategy.getSync st (Utils.getKey (KeyPath.arr p)) = some e)
    (hv : Lodash.get e.value p = some v)
    (hexp : Utils.isExpired e.expiresAt now = true) :
    get st now p true = (none, (unset st p).2) ∧
    get st now p false = (some { value := v, expiresAt := e.expiresAt, isExpired := true }, st) := by
  constructor
  · unfold get
    simp only [hst, hv, hexp]
    simp
  · unfold get
    simp only [hst, hv, hexp]
    simp

/-- Concrete instantiation of `get_expired_contract`: entry `k ↦ "v"` whose
expiry 1 has elapsed by time 5. -/
theorem get_expired_contract_witness :
    get [("k", ⟨JValue.obj [("k", JValue.str "v")], 1⟩)] 5 ["k"] true =
        (none, (unset [("k", ⟨JValue.obj [("k", JValue.str "v")], 1⟩)] ["k"]).2) ∧
      get [("k", ⟨JValue.obj [("k", JValue.str "v")], 1⟩)] 5 ["k"] false =
        (some { value := JValue.str "v", expiresAt := 1, isExpired := true },
          [("k", ⟨JValue.obj [("k", JValue.str "v")], 1⟩)]) :=
  get_expired_contract [("k", ⟨JValue.obj [("k", JValue.str "v")], 1⟩)] 5 ["k"]
    ⟨JValue.obj [("k", JValue.str "v")], 1⟩ (JValue.str "v") rfl rfl rfl

end HybridWebCacheModel

namespace HybridWebCacheModel

/-! ## C3 — unset of a sub-field -/

/-- C3: for an entry addressed by `p`'s root key and a path addressing an
existing object sub-field, `unset p` removes that field; if the remaining
document is non-empty it persists the update back under the same root key
and returns `true`, and if the document became empty it deletes the whole
root entry (returning the backend's delete result); `unset` of a path whose
root key is absent — in particular on an empty store — is a no-op returning
`false`. -/
theorem unset_subfield_contract :
    (∀ (st : CacheState) (p : List String) (e : DataModel),
      MemoryStrategy.getSync st (Utils.getKey (KeyPath.arr p)) = some e →
      Lodash.parentObjHas e.value p = true →
      Lodash.get (Lodash.unset e.value p).1 p = none ∧
      (0 < objectKeysLength (Lodash.unset e.value p).1 →
        unset st p = (true, MemoryStrategy.setSync st (Utils.getKey (KeyPath.arr p))
          { value := (Lodash.unset e.value p).1, expiresAt := e.expiresAt })) ∧
      (objectKeysLength (Lodash.unset e.value p).1 = 0 →
        unset st p = (true, listErase (Utils.getKey (KeyPath.arr p)) st))) ∧
    (∀ (st : CacheState) (p : List String),
      MemoryStrategy.getSync st (Utils.getKey (KeyPath.arr p)) = none →
      unset st p = (false, st)) := by
  constructor
  · intro st p e hst hfield
    have hne : st ≠ [] := MemoryStrategy.getSync_ne_nil st _ e hst
    have hlen : ¬ st.length = 0 := by
      intro h0
      exact hne (List.length_eq_zero.mp h0)
    have hflag : (Lodash.unset e.value p).2 = true := Lodash.unset_snd_true p e.value
    refine ⟨Lodash.get_unset_of_parentObjHas p e.value hfield, fun hpos => ?_, fun hzero => ?_⟩
    · unfold unset
      rw [if_neg hlen]
      simp only [hst]
      rw [if_pos ⟨hflag, hpos⟩]
    · unfold unset
      rw [if_neg hlen]
      simp only [hst]
      rw [if_neg (by omega : ¬ ((Lodash.unset e.value p).2 = true ∧
        0 < objectKeysLength (Lodash.unset e.value p).1))]
      have hhas : MemoryStrategy.hasSync st (Utils.getKey (KeyPath.arr p)) = true := by
        unfold MemoryStrategy.hasSync MemoryStrategy.getSync at *
        rw [hst]
        rfl
      unfold MemoryStrategy.unsetSync
      rw [if_neg hlen]
      show (MemoryStrategy.hasSync st (Utils.getKey (KeyPath.arr p)),
        listErase (Utils.getKey (KeyPath.arr p)) st) = _
      rw [hhas]
  · intro st p hnone
    unfold unset
    by_cases hlen : st.length = 0
    · rw [if_pos hlen]
    · rw [if_neg hlen]
      simp only [hnone]

/-- Concrete instantiation of `unset_subfield_contract`: removing `a` from
`{profile: {a: 1, b: 2}}` keeps the entry with the field gone (update
branch), and unsetting under an absent root key on the empty store returns
`false`. -/
theorem unset_subfield_contract_witness :
    unset [("profile", ⟨JValue.obj [("profile",
          JValue.obj [("a", JValue.num 1), ("b", JValue.num 2)])], 7⟩)] ["profile", "a"] =
      (true, [("profile", ⟨JValue.obj [("profile", JValue.obj [("b", JValue.num 2)])], 7⟩)]) ∧
    unset [] ["missing", "x"] = (false, []) := by
  constructor
  · exact (unset_subfield_contract.1
      [("profile", ⟨JValue.obj [("profile",
        JValue.obj [("a", JValue.num 1), ("b", JValue.num 2)])], 7⟩)]
      ["profile", "a"]
      ⟨JValue.obj [("profile", JValue.obj [("a", JValue.num 1), ("b", JValue.num 2)])], 7⟩
      rfl rfl).2.1 (by decide)
  · exact unset_subfield_contract.2 [] ["missing", "x"] rfl

end HybridWebCacheModel

namespace HybridWebCacheModel

/-! ## C4 — unsetting an array index preserves shape -/

theorem listLookup_length_pos {β : Type} (key : String) (l : List (String × β)) (v : β)
    (h : listLookup key l = some v) : 0 < l.length := by
  cases l with
  | nil => exact Option.noConfusion h
  | cons kv rest => simp

/-- C4: for a stored entry whose document holds an array at path `q`,
`unset (q ++ [i])` at a valid index `i` succeeds (the root document stays
non-empty, so the entry is updated in place), and a subsequent `get q`
returns the array with its length unchanged and `null` at position `i`. -/
theorem unset_array_index_contract (st : CacheState) (q : List String) (sIdx : String) (i : Nat)
    (e : DataModel) (fs : List (String × JValue)) (xs : List JValue) (now : Int)
    (removeExpired : Bool)
    (hq : q ≠ [])
    (hidx : Lodash.toIndex? sIdx = some i)
    (hst : MemoryStrategy.getSync st (Utils.getKey (KeyPath.arr q)) = some e)
    (hobj : e.value = JValue.obj fs)
    (harr : Lodash.get e.value q = some (JValue.arr xs))
    (hlt : i < xs.length)
    (hnexp : Utils.isExpired e.expiresAt now = false) :
    ∃ st' : CacheState,
      unset st (q ++ [sIdx]) = (true, st') ∧
      get st' now q removeExpired =
        (some { value := JValue.arr (xs.set i JValue.null), expiresAt := e.expiresAt,
                isExpired := false }, st') ∧
      (xs.set i JValue.null).length = xs.length := by
  obtain ⟨qh, q2, rfl⟩ : ∃ qh q2, q = qh :: q2 := by
    cases q with
    | nil => cases hq rfl
    | cons a t => exact ⟨a, t, rfl⟩
  have hkey : Utils.getKey (KeyPath.arr ((qh :: q2) ++ [sIdx])) =
      Utils.getKey (KeyPath.arr (qh :: q2)) := getKey_arr_append _ _ (by simp)
  -- the parent deletion: reading back at q shows the array with slot i nulled
  have hdel : (Lodash.deleteKey (JValue.arr xs) sIdx).1 = JValue.arr (xs.set i JValue.null) := by
    simp [Lodash.deleteKey, hidx, hlt]
  have hget : Lodash.get (Lodash.unset e.value ((qh :: q2) ++ [sIdx])).1 (qh :: q2) =
      some (JValue.arr (xs.set i JValue.null)) := by
    rw [Lodash.get_unset_append sIdx (qh :: q2) e.value (JValue.arr xs) harr, hdel]
  -- the top level of the modified document: an in-place update of fs
  have hlook : ∃ c, listLookup qh fs = some c := by
    rw [hobj] at harr
    rcases hc : listLookup qh fs with _ | c
    · rw [Lodash.get_cons_obj_none fs qh q2 hc] at harr
      exact Option.noConfusion harr
    · exact ⟨c, rfl⟩
  obtain ⟨c, hc⟩ := hlook
  have htop : (Lodash.unset e.value ((qh :: q2) ++ [sIdx])).1 =
      JValue.obj (listUpdate qh (Lodash.unset c (q2 ++ [sIdx])).1 fs) := by
    rw [hobj]
    rw [show (qh :: q2) ++ [sIdx] = qh :: (q2 ++ [sIdx]) from rfl]
    rw [Lodash.unset_cons_obj fs qh (q2 ++ [sIdx]) (by simp) c hc]
  have hkeys : 0 < objectKeysLength (Lodash.unset e.value ((qh :: q2) ++ [sIdx])).1 := by
    rw [htop]
    show 0 < (listUpdate qh (Lodash.unset c (q2 ++ [sIdx])).1 fs).length
    rw [listUpdate_length]
    exact listLookup_length_pos qh fs c hc
  have hflag : (Lodash.unset e.value ((qh :: q2) ++ [sIdx])).2 = true :=
    Lodash.unset_snd_true _ e.value
  have hne : st ≠ [] := MemoryStrategy.getSync_ne_nil st _ e hst
  have hlen : ¬ st.length = 0 := fun h0 => hne (List.length_eq_zero.mp h0)
  refine ⟨MemoryStrategy.setSync st (Utils.getKey (KeyPath.arr (qh :: q2)))
    { value := (Lodash.unset e.value ((qh :: q2) ++ [sIdx])).1, expiresAt := e.expiresAt }, ?_, ?_, ?_⟩
  · unfold unset
    rw [if_neg hlen]
    simp only [hkey, hst]
    rw [if_pos ⟨hflag, hkeys⟩]
  · unfold get
    simp only [MemoryStrategy.getSync_setSync_self, hget, hnexp]
    simp
  · simp

/-- Concrete instantiation of `unset_array_index_contract`: the scenario
`set("items", [1,2,3])`, `unset("items[1]")`, `get("items")` →
`[1, null, 3]`. -/
theorem unset_array_index_contract_witness :
    ∃ st' : CacheState,
      unset [("items", ⟨JValue.obj [("items", JValue.arr [JValue.num 1, JValue.num 2, JValue.num 3])], 0⟩)]
          (["items"] ++ ["1"]) = (true, st') ∧
      get st' 9 ["items"] true =
        (some { value := JValue.arr ([JValue.num 1, JValue.num 2, JValue.num 3].set 1 JValue.null),
                expiresAt := 0, isExpired := false }, st') ∧
      ([JValue.num 1, JValue.num 2, JValue.num 3].set 1 JValue.null).length =
        [JValue.num 1, JValue.num 2, JValue.num 3].length :=
  unset_array_index_contract
    [("items", ⟨JValue.obj [("items", JValue.arr [JValue.num 1, JValue.num 2, JValue.num 3])], 0⟩)]
    ["items"] "1" 1
    ⟨JValue.obj [("items", JValue.arr [JValue.num 1, JValue.num 2, JValue.num 3])], 0⟩
    [("items", JValue.arr [JValue.num 1, JValue.num 2, JValue.num 3])]
    [JValue.num 1, JValue.num 2, JValue.num 3] 9 true
    (by simp) rfl rfl rfl rfl (by decide) rfl

end HybridWebCacheModel

namespace HybridWebCacheModel

/-! ## C8 — root key extraction -/

/-- The regex match of `Utils.getKey` also stops at `]`, not only at `.` and
`[`, and an empty match leaves the whole string in place. -/
theorem strKeyMatch_eq_takeWhile (cs : List Char) :
    Utils.strKeyMatch cs = cs.takeWhile fun c => !(c == '.' || c == '[' || c == ']') := by
  induction cs with
  | nil => rfl
  | cons c rest ih =>
    by_cases h : c = '.' ∨ c = '[' ∨ c = ']'
    · have hb : (!(c == '.' || c == '[' || c == ']')) = false := by
        rcases h with h | h | h <;> simp [h]
      have hs : Utils.strKeyMatch (c :: rest) = [] := by
        conv_lhs => unfold Utils.strKeyMatch
        rw [if_pos h]
      rw [hs, List.takeWhile_cons]
      rw [if_neg (by simp [hb])]
    · have hb : (!(c == '.' || c == '[' || c == ']')) = true := by
        push_neg at h
        simp [h.1, h.2.1, h.2.2]
      have hs : Utils.strKeyMatch (c :: rest) = c :: Utils.strKeyMatch rest := by
        conv_lhs => unfold Utils.strKeyMatch
        rw [if_neg h]
      rw [hs, ih, List.takeWhile_cons]
      rw [if_pos (by simpa using hb)]

/-- C8 counterexample: on the string `".a"` the regex `/^[^.[\]]+/` does not
match, so `Utils.getKey` returns the whole string `".a"`, whereas the claim
("the substring of the path before the first `.` or `[`") demands the empty
string. -/
theorem getKey_claim_counterexample :
    Utils.getKey (KeyPath.str ".a") = ".a" ∧ getKeyClaim (KeyPath.str ".a") = "" :=
  ⟨rfl, rfl⟩

/-- C8 (amended): for an array key path, `Utils.getKey` returns the first
element (the empty string for an empty array); for a string key path it
returns the maximal non-empty prefix containing no `.`, `[` or `]` — and
when that prefix is empty (the string is empty or starts with one of those
characters) it returns the whole string unchanged. -/
theorem getKey_amended (segs : List String) (s : String) :
    Utils.getKey (KeyPath.arr segs) = segs.headD "" ∧
    Utils.getKey (KeyPath.str s) =
      (if (s.data.takeWhile fun c => !(c == '.' || c == '[' || c == ']')).isEmpty then s
       else String.mk (s.data.takeWhile fun c => !(c == '.' || c == '[' || c == ']'))) := by
  constructor
  · cases segs <;> rfl
  · show (if (Utils.strKeyMatch s.data).isEmpty then s else String.mk (Utils.strKeyMatch s.data)) = _
    rw [strKeyMatch_eq_takeWhile]

end HybridWebCacheModel

namespace HybridWebCacheModel

/-! ## C9 — `isExpired` is derived, never stored -/

theorem getAllGo_cons_some (now : Int) (removeExpired : Bool) (key : String) (data : DataModel)
    (rest : List (String × DataModel)) (st0 : CacheState) (acc : List (String × DataGetModel))
    (iKey : String) (iValue : JValue)
    (hef : entriesFirst key data.value = some (iKey, iValue)) :
    getAllGo now removeExpired ((key, data) :: rest) st0 acc =
      (if removeExpired = true ∧ Utils.isExpired data.expiresAt now = true then
        getAllGo now removeExpired rest (unset st0 [iKey]).2 acc
      else
        getAllGo now removeExpired rest st0
          (acc ++ [(iKey, { value := iValue, expiresAt := data.expiresAt,
                            isExpired := Utils.isExpired data.expiresAt now })])) := by
  simp [getAllGo, hef]

/-- Every item produced by the `getAll` loop either was already accumulated
or is derived from a snapshot entry: its `expiresAt` is copied from that
entry and its `isExpired` is freshly recomputed from it. -/
theorem getAllGo_items (now : Int) (removeExpired : Bool) :
    ∀ (snap : List (String × DataModel)) (st0 : CacheState)
      (acc res : List (String × DataGetModel)) (st' : CacheState),
      getAllGo now removeExpired snap st0 acc = .ok (res, st') →
      ∀ kv ∈ res, kv ∈ acc ∨ ∃ key e, (key, e) ∈ snap ∧ kv.2.expiresAt = e.expiresAt ∧
        kv.2.isExpired = Utils.isExpired e.expiresAt now := by
  intro snap
  induction snap with
  | nil =>
    intro st0 acc res st' h kv hkv
    simp only [getAllGo, Except.ok.injEq, Prod.mk.injEq] at h
    rw [← h.1] at hkv
    exact Or.inl hkv
  | cons hd rest ih =>
    intro st0 acc res st' h kv hkv
    obtain ⟨key, data⟩ := hd
    rcases hef : entriesFirst key data.value with _ | ikv
    · simp only [getAllGo, hef] at h
      exact Except.noConfusion h
    · obtain ⟨iKey, iValue⟩ := ikv
      rw [getAllGo_cons_some now removeExpired key data rest st0 acc iKey iValue hef] at h
      by_cases hx : removeExpired = true ∧ Utils.isExpired data.expiresAt now = true
      · rw [if_pos hx] at h
        rcases ih _ _ _ _ h kv hkv with h2 | ⟨k2, e2, hm, he, hi⟩
        · exact Or.inl h2
        · exact Or.inr ⟨k2, e2, List.mem_cons_of_mem _ hm, he, hi⟩
      · rw [if_neg hx] at h
        rcases ih _ _ _ _ h kv hkv with h2 | ⟨k2, e2, hm, he, hi⟩
        · rcases List.mem_append.mp h2 with h3 | h3
          · exact Or.inl h3
          · simp only [List.mem_singleton] at h3
            refine Or.inr ⟨key, data, List.mem_cons_self _ _, ?_, ?_⟩ <;> rw [h3]
        · exact Or.inr ⟨k2, e2, List.mem_cons_of_mem _ hm, he, hi⟩

/-- C9: `isExpired` is never stored — the persisted record type carries only
`value` and `expiresAt` — and every observation recomputes it: any item
returned by `get` (or `getSync`) or by `getAll` (or `getAllSync`) carries
the `expiresAt` of a stored entry together with `isExpired` equal to
`Utils.isExpired` of that `expiresAt` at observation time. -/
theorem isExpired_recomputed_at_read :
    (∀ (st : CacheState) (now : Int) (p : List String) (removeExpired : Bool)
      (r : DataGetModel) (st' : CacheState),
      get st now p removeExpired = (some r, st') →
      r.isExpired = Utils.isExpired r.expiresAt now ∧
      ∃ e, MemoryStrategy.getSync st (Utils.getKey (KeyPath.arr p)) = some e ∧
        r.expiresAt = e.expiresAt) ∧
    (∀ (st : CacheState) (now : Int) (removeExpired : Bool)
      (items : List (String × DataGetModel)) (st' : CacheState),
      getAll st now removeExpired = .ok (some items, st') →
      ∀ kv ∈ items, kv.2.isExpired = Utils.isExpired kv.2.expiresAt now ∧
        ∃ key e, (key, e) ∈ st ∧ kv.2.expiresAt = e.expiresAt) := by
  constructor
  · intro st now p removeExpired r st' h
    unfold get at h
    rcases hst : MemoryStrategy.getSync st (Utils.getKey (KeyPath.arr p)) with _ | e
    · simp only [hst] at h
      simp at h
    · simp only [hst] at h
      rcases hv : Lodash.get e.value p with _ | v
      · simp only [hv] at h
        simp at h
      · simp only [hv] at h
        by_cases hx : removeExpired = true ∧ Utils.isExpired e.expiresAt now = true
        · rw [if_pos hx] at h
          simp at h
        · rw [if_neg hx] at h
          simp only [Prod.mk.injEq, Option.some.injEq] at h
          rw [← h.1]
          exact ⟨rfl, e, rfl, rfl⟩
  · intro st now removeExpired items st' h
    unfold getAll at h
    rcases hall : MemoryStrategy.getAllSync st with _ | snap
    · simp only [hall] at h
      simp at h
    · simp only [hall] at h
      rcases hgo : getAllGo now removeExpired snap st [] with msg | pr
      · simp only [hgo, Except.map] at h
        exact Except.noConfusion h
      · simp only [hgo, Except.map, Except.ok.injEq, Prod.mk.injEq] at h
        obtain ⟨res, st2⟩ := pr
        have hres : res = items := by
          rcases h with ⟨h1, _⟩
          by_cases hlen : 0 < res.length
          · rw [if_pos hlen] at h1
            exact Option.some.injEq _ _ ▸ h1
          · rw [if_neg hlen] at h1
            exact Option.noConfusion h1
        subst hres
        intro kv hkv
        have hsnap : snap = st := by
          unfold MemoryStrategy.getAllSync at hall
          by_cases hl : st.length = 0
          · rw [if_pos hl] at hall
            exact Option.noConfusion hall
          · rw [if_neg hl] at hall
            exact (Option.some.injEq _ _ ▸ hall).symm
        rcases getAllGo_items now removeExpired snap st [] res st2 hgo kv hkv with
          h2 | ⟨k2, e2, hm, he, hi⟩
        · exact absurd h2 (List.not_mem_nil kv)
        · rw [hsnap] at hm
          exact ⟨by rw [he, hi], k2, e2, hm, he⟩

/-- Concrete instantiation of `isExpired_recomputed_at_read`. -/
theorem isExpired_recomputed_at_read_witness :
    ((⟨JValue.str "v", 1, true⟩ : DataGetModel).isExpired =
        Utils.isExpired (⟨JValue.str "v", 1, true⟩ : DataGetModel).expiresAt 5 ∧
      ∃ e, MemoryStrategy.getSync [("k", ⟨JValue.obj [("k", JValue.str "v")], 1⟩)]
          (Utils.getKey (KeyPath.arr ["k"])) = some e ∧
        (⟨JValue.str "v", 1, true⟩ : DataGetModel).expiresAt = e.expiresAt) ∧
    ∀ kv ∈ [("k", (⟨JValue.str "v", 1, true⟩ : DataGetModel))],
      kv.2.isExpired = Utils.isExpired kv.2.expiresAt 5 ∧
      ∃ key e, (key, e) ∈ [("k", (⟨JValue.obj [("k", JValue.str "v")], 1⟩ : DataModel))] ∧
        kv.2.expiresAt = e.expiresAt :=
  ⟨isExpired_recomputed_at_read.1 [("k", ⟨JValue.obj [("k", JValue.str "v")], 1⟩)] 5 ["k"] false
      ⟨JValue.str "v", 1, true⟩ [("k", ⟨JValue.obj [("k", JValue.str "v")], 1⟩)] rfl,
    isExpired_recomputed_at_read.2 [("k", ⟨JValue.obj [("k", JValue.str "v")], 1⟩)] 5 false
      [("k", ⟨JValue.str "v", 1, true⟩)] [("k", ⟨JValue.obj [("k", JValue.str "v")], 1⟩)] rfl⟩

end HybridWebCacheModel

namespace HybridWebCacheModel

/-! ## C10 — the single-root-key document invariant -/

theorem stateOk_setSync (st : CacheState) (a : String) (d : DataModel) (c : JValue)
    (hok : StateOk st) (hd : d.value = JValue.obj [(a, c)]) :
    StateOk (MemoryStrategy.setSync st a d) := by
  intro kv hkv
  rcases mem_listUpsert a d st kv hkv with h | h
  · rw [h]
    exact ⟨c, hd⟩
  · exact hok kv h

theorem lodashSet_single (a : String) (t : List String) (v : JValue) (doc : JValue)
    (hdoc : doc = JValue.obj [] ∨ ∃ sub, doc = JValue.obj [(a, sub)]) :
    ∃ c, Lodash.set doc (a :: t) v = JValue.obj [(a, c)] := by
  have hgen : ∀ fs : List (String × JValue),
      ∃ c, Lodash.set (JValue.obj fs) (a :: t) v = JValue.obj (listUpsert a c fs) := by
    intro fs
    cases t with
    | nil => exact ⟨v, rfl⟩
    | cons b t2 => exact ⟨_, rfl⟩
  rcases hdoc with h | ⟨sub, h⟩
  · subst h
    obtain ⟨c, hc⟩ := hgen []
    exact ⟨c, by simpa [listUpsert] using hc⟩
  · subst h
    obtain ⟨c, hc⟩ := hgen [(a, sub)]
    exact ⟨c, by simpa [listUpsert] using hc⟩

theorem stateOk_set (st : CacheState) (now : Int) (p : List String) (v : JValue) (ttl : TTL)
    (hok : StateOk st) (hp : p ≠ []) : StateOk (set st now p v ttl) := by
  obtain ⟨a, t, rfl⟩ : ∃ a t, p = a :: t := by
    cases p with
    | nil => cases hp rfl
    | cons a t => exact ⟨a, t, rfl⟩
  have hbase : baseDoc st (Utils.getKey (KeyPath.arr (a :: t))) = JValue.obj [] ∨
      ∃ sub, baseDoc st (Utils.getKey (KeyPath.arr (a :: t))) = JValue.obj [(a, sub)] := by
    rw [getKey_arr_cons]
    unfold baseDoc
    rcases hb : MemoryStrategy.getSync st a with _ | data
    · exact Or.inl rfl
    · obtain ⟨sub, hsub⟩ := hok (a, data) (listLookup_mem a st data hb)
      have hsub2 : data.value = JValue.obj [(a, sub)] := hsub
      refine Or.inr ⟨sub, ?_⟩
      show (if jsTruthy data.value = true then data.value else JValue.obj []) = _
      rw [hsub2]
      rfl
  obtain ⟨c, hc⟩ := lodashSet_single a t v _ hbase
  show StateOk (MemoryStrategy.setSync st (Utils.getKey (KeyPath.arr (a :: t)))
    (prepareDataSet now (Lodash.set (baseDoc st (Utils.getKey (KeyPath.arr (a :: t)))) (a :: t) v) ttl))
  rw [getKey_arr_cons] at hc ⊢
  exact stateOk_setSync st a _ c hok hc

theorem setStr_eq_set (st : CacheState) (now : Int) (s : String) (v : JValue) (ttl : TTL)
    (h : Utils.getKey (KeyPath.str s) = Utils.getKey (KeyPath.arr (Lodash.castPath s))) :
    setStr st now s v ttl = set st now (Lodash.castPath s) v ttl := by
  unfold setStr set
  rw [h]

theorem reachable_stateOk (st : CacheState) (h : Reachable st) : StateOk st := by
  induction h with
  | empty => intro kv hkv; exact absurd hkv (List.not_mem_nil kv)
  | setStep st now p v ttl hR hp ih =>
    exact stateOk_set st now p v ttl ih hp
  | setStrStep st now s v ttl hR hne hagree ih =>
    rw [setStr_eq_set st now s v ttl hagree]
    exact stateOk_set st now (Lodash.castPath s) v ttl ih hne
  | unsetStep st p hR hp ih =>
    obtain ⟨a, t, rfl⟩ : ∃ a t, p = a :: t := by
      cases p with
      | nil => cases hp rfl
      | cons a t => exact ⟨a, t, rfl⟩
    unfold unset
    by_cases hlen : st.length = 0
    · rw [if_pos hlen]
      exact ih
    · rw [if_neg hlen]
      rw [getKey_arr_cons]
      rcases hmem : MemoryStrategy.getSync st a with _ | data
      · simp only [hmem]
        exact ih
      · simp only [hmem]
        obtain ⟨sub0, hsub⟩ := ih (a, data) (listLookup_mem a st data hmem)
        cases t with
        | nil =>
          have hr : Lodash.unset data.value [a] = (JValue.obj [], true) := by
            rw [hsub]
            show Lodash.deleteKey (JValue.obj [(a, sub0)]) a = _
            simp [Lodash.deleteKey, listErase]
          rw [hr]
          rw [if_neg (by simp [objectKeysLength])]
          unfold MemoryStrategy.unsetSync
          rw [if_neg hlen]
          show StateOk (listErase a st)
          intro kv hkv
          exact ih kv (mem_listErase a st kv hkv)
        | cons b t2 =>
          have hlook : listLookup a [(a, sub0)] = some sub0 := by simp [listLookup]
          have hval : (Lodash.unset data.value (a :: b :: t2)).1 =
              JValue.obj [(a, (Lodash.unset sub0 (b :: t2)).1)] := by
            rw [hsub, Lodash.unset_cons_obj [(a, sub0)] a (b :: t2) (by simp) sub0 hlook]
            show JValue.obj (listUpdate a (Lodash.unset sub0 (b :: t2)).1 [(a, sub0)]) = _
            simp [listUpdate]
          have hflag : (Lodash.unset data.value (a :: b :: t2)).2 = true :=
            Lodash.unset_snd_true _ _
          rw [if_pos ⟨hflag, by rw [hval]; simp [objectKeysLength]⟩]
          show StateOk (MemoryStrategy.setSync st a
            { value := (Lodash.unset data.value (a :: b :: t2)).1, expiresAt := data.expiresAt })
          exact stateOk_setSync st a _ _ ih hval
  | unsetAllStep st hR ih =>
    unfold unsetAll
    by_cases hlen : st.length = 0
    · rw [if_pos hlen]
      exact ih
    · rw [if_neg hlen]
      unfold MemoryStrategy.unsetSync
      rw [if_neg hlen]
      show StateOk ([] : CacheState)
      intro kv hkv
      exact absurd hkv (List.not_mem_nil kv)
  | resetStep st now kvs ttl hR hne ih =>
    unfold resetWith
    have hcleared : StateOk (unsetAll st).2 := by
      unfold unsetAll
      by_cases hlen : st.length = 0
      · rw [if_pos hlen]
        exact ih
      · rw [if_neg hlen]
        unfold MemoryStrategy.unsetSync
        rw [if_neg hlen]
        show StateOk ([] : CacheState)
        intro kv hkv
        exact absurd hkv (List.not_mem_nil kv)
    revert hcleared hne
    generalize (unsetAll st).2 = acc
    intro hne hcleared
    induction kvs generalizing acc with
    | nil => exact hcleared
    | cons kv0 rest ih2 =>
      obtain ⟨p0, v0⟩ := kv0
      have hne0 : p0 ≠ [] := hne (p0, v0) (List.mem_cons_self _ _)
      obtain ⟨a, t, rfl⟩ : ∃ a t, p0 = a :: t := by
        cases p0 with
        | nil => cases hne0 rfl
        | cons a t => exact ⟨a, t, rfl⟩
      simp only [List.foldl_cons]
      have hstep : StateOk (MemoryStrategy.setSync acc (Utils.getKey (KeyPath.arr (a :: t)))
          (prepareDataSet now (Lodash.set (JValue.obj []) (a :: t) v0) ttl)) := by
        obtain ⟨c, hc⟩ := lodashSet_single a t v0 (JValue.obj []) (Or.inl rfl)
        rw [getKey_arr_cons]
        exact stateOk_setSync acc a _ c hcleared hc
      exact ih2 _ (fun kv hkv => hne kv (List.mem_cons_of_mem _ hkv)) hstep

theorem getAllGo_ok (now : Int) (removeExpired : Bool) :
    ∀ (snap : List (String × DataModel)) (st0 : CacheState) (acc : List (String × DataGetModel)),
      (∀ kv ∈ snap, (entriesFirst kv.1 kv.2.value).isSome) →
      ∃ r, getAllGo now removeExpired snap st0 acc = .ok r := by
  intro snap
  induction snap with
  | nil => intro st0 acc _; exact ⟨(acc, st0), rfl⟩
  | cons hd rest ih =>
    intro st0 acc h
    obtain ⟨key, data⟩ := hd
    rcases hef : entriesFirst key data.value with _ | ikv
    · have h2 := h (key, data) (List.mem_cons_self _ _)
      rw [hef] at h2
      exact absurd h2 (by simp)
    · obtain ⟨iKey, iValue⟩ := ikv
      rw [getAllGo_cons_some now removeExpired key data rest st0 acc iKey iValue hef]
      by_cases hx : removeExpired = true ∧ Utils.isExpired data.expiresAt now = true
      · rw [if_pos hx]
        exact ih _ _ (fun kv hkv => h kv (List.mem_cons_of_mem _ hkv))
      · rw [if_neg hx]
        exact ih _ _ (fun kv hkv => h kv (List.mem_cons_of_mem _ hkv))

/-- C10 (amended): in every state reachable through `set`/`setSync`,
`resetWith`/`resetWithSync` and `unset`/`unsetSync` with non-empty key
paths in parsed array form — or string key paths on which `Utils.getKey`
agrees with the first segment of lodash's parse — each stored entry's value
is a non-empty object whose first enumerable top-level key is the entry's
root key; consequently the `Object.entries(value)[0]` destructuring in
`getAll`/`getAllSync` never fails on such states.  The restriction is
forced: a string key path on which the two parses disagree stores an entry
whose first key differs from its root key. -/
theorem reachable_entry_shape (st : CacheState) (h : Reachable st) :
    (∀ kv ∈ st, ∃ sub fs2, kv.2.value = JValue.obj ((kv.1, sub) :: fs2)) ∧
    (∀ (now : Int) (removeExpired : Bool), ∃ r, getAll st now removeExpired = .ok r) := by
  have hok : StateOk st := reachable_stateOk st h
  constructor
  · intro kv hkv
    obtain ⟨sub, hs⟩ := hok kv hkv
    exact ⟨sub, [], hs⟩
  · intro now removeExpired
    unfold getAll
    rcases hall : MemoryStrategy.getAllSync st with _ | snap
    · refine ⟨(none, st), ?_⟩
      simp only [hall]
    · have hsnap : snap = st := by
        unfold MemoryStrategy.getAllSync at hall
        by_cases hl : st.length = 0
        · rw [if_pos hl] at hall
          exact Option.noConfusion hall
        · rw [if_neg hl] at hall
          exact (Option.some.injEq _ _ ▸ hall).symm
      have hef : ∀ kv ∈ snap, (entriesFirst kv.1 kv.2.value).isSome := by
        intro kv hkv
        obtain ⟨sub, hs⟩ := hok kv (hsnap ▸ hkv)
        rw [hs]
        rfl
      obtain ⟨r, hr⟩ := getAllGo_ok now removeExpired snap st [] hef
      refine ⟨(if 0 < r.1.length then some r.1 else none, r.2), ?_⟩
      simp only [hall, hr, Except.map]

/-- Concrete instantiation of `reachable_entry_shape` at the state produced
by one `set` from the empty store. -/
theorem reachable_entry_shape_witness :
    (∀ kv ∈ set [] 0 ["user", "name"] (JValue.str "Jane") (TTL.ms 5000),
      ∃ sub fs2, kv.2.value = JValue.obj ((kv.1, sub) :: fs2)) ∧
    (∀ (now : Int) (removeExpired : Bool),
      ∃ r, getAll (set [] 0 ["user", "name"] (JValue.str "Jane") (TTL.ms 5000)) now removeExpired =
        .ok r) :=
  reachable_entry_shape _
    (Reachable.setStep [] 0 ["user", "name"] (JValue.str "Jane") (TTL.ms 5000)
      Reachable.empty (by simp))

/-- C10 counterexample: the claim's unrestricted form is false for string
key paths.  `setSync("a]b", 1)` on the empty store — a single facade
mutation — derives the storage key with `Utils.getKey`, whose regex stops at
`]`, giving root key `"a"`, while lodash `castPath` treats `"a]b"` as one
plain key (no dot, no bracket segment), so the persisted value is the
object with single key `"a]b"`: the value's first enumerable top-level key
differs from the entry's root key.  `setSync(".a", 1)` likewise stores root
key `".a"` (the regex does not match, so `getKey` keeps the whole string)
with value `{"": {"a": 1}}` (lodash parses `".a"` as `["", "a"]`), whose
first key `""` differs from `".a"`. -/
theorem reachable_entry_shape_counterexample :
    setStr [] 0 "a]b" (JValue.num 1) (TTL.ms 0) =
      [("a", ⟨JValue.obj [("a]b", JValue.num 1)], 0⟩)] ∧
    (∃ kv ∈ setStr [] 0 "a]b" (JValue.num 1) (TTL.ms 0),
      ∀ (sub : JValue) (fs2 : List (String × JValue)),
        kv.2.value ≠ JValue.obj ((kv.1, sub) :: fs2)) ∧
    setStr [] 0 ".a" (JValue.num 1) (TTL.ms 0) =
      [(".a", ⟨JValue.obj [("", JValue.obj [("a", JValue.num 1)])], 0⟩)] := by
  refine ⟨rfl, ⟨("a", ⟨JValue.obj [("a]b", JValue.num 1)], 0⟩),
    List.mem_cons_self _ _, ?_⟩, rfl⟩
  intro sub fs2 h
  injection h with hfields
  injection hfields with hhead htail
  have hk : ("a]b" : String) = "a" := congrArg Prod.fst hhead
  exact absurd hk (by decide)

end HybridWebCacheModel
